import Mathlib

/-!
Verification of the staking state machine, commission schedule logic and
address codec of the oasis-core repository, as a shallow embedding in Lean.

Conventions of the embedding:
* `quantity.Quantity` (an arbitrary-precision non-negative integer in the
  source) is embedded as `Nat`.  Its checked operations (`Sub`, `Move`)
  return `Option`/explicit success flags, failing exactly when the source
  returns an underflow / insufficient-balance error.
* `epochtime.EpochTime` is embedded as `Nat` (a logical, monotonically
  increasing epoch counter).
* Account identifiers (`staking.ID`, a 20-byte address in the source) are
  embedded as `Nat`; only decidable equality of identifiers is used by the
  transaction logic.
* Stateful transaction handlers (`transfer`, `burn`, `reclaimEscrow`,
  `amendCommissionSchedule` from
  `go/consensus/tendermint/apps/staking/transactions.go`) become functions
  `StakingState → StakingState × Option SError`: the returned state is the
  state at the point the handler returns, and the `Option SError` component
  is the error result (`none` on success).  Gas accounting lives in the
  transaction context, not in the staking state, and is not part of the
  embedding.
-/

namespace Oasis

/-- Errors produced by the staking transaction handlers.  `commission`
carries the message of a commission-schedule validation failure. -/
inductive SError where
  | forbidden
  | insufficientBalance
  | invalidArgument
  | insufficientStake
  | commission (msg : String)
deriving DecidableEq

instance {ε α : Type} [DecidableEq ε] [DecidableEq α] : DecidableEq (Except ε α) :=
  fun x y =>
    match x, y with
    | .ok a, .ok b =>
      if h : a = b then .isTrue (by rw [h]) else .isFalse (by simp [h])
    | .error a, .error b =>
      if h : a = b then .isTrue (by rw [h]) else .isFalse (by simp [h])
    | .ok _, .error _ => .isFalse (by simp)
    | .error _, .ok _ => .isFalse (by simp)

/-- Checked subtraction of quantities: `q.Sub n` fails (leaving `q`
unchanged) when `n > q`, mirroring `quantity.Quantity.Sub`. -/
def qSub (q n : Nat) : Option Nat :=
  if n ≤ q then some (q - n) else none

/-- `quantity.Move (dst, src, n)`: moves `n` from `src` to `dst`, failing
with an insufficient-balance error when `src < n`.  Returns the new
`(dst, src)` pair on success. -/
def qMove (dst src n : Nat) : Option (Nat × Nat) :=
  match qSub src n with
  | none => none
  | some src' => some (dst + n, src')

/-- A share pool: a token balance together with the total number of shares
issued against it.  Field names follow `staking.SharePool`. -/
structure SharePool where
  Balance : Nat
  TotalShares : Nat
deriving DecidableEq

/-- Modelled from the spec: the `SharePool` method computing how many
shares a token deposit mints (the pool "maps shares to balance pro-rata";
an empty pool exchanges 1:1, per end-to-end scenario 1, and the minted
amount uses floor division, per scenario 2 and the design notes).  The
method itself (`sharesForTokens`) is not under `src/`; only its callers
are.  It fails when the pool has shares but no balance. -/
def sharesForTokens (p : SharePool) (amount : Nat) : Option Nat :=
  if p.TotalShares = 0 then
    some amount
  else if p.Balance = 0 then
    none
  else
    some (amount * p.TotalShares / p.Balance)

/-- Modelled from the spec: the `SharePool` method computing how many
tokens a number of shares redeems pro-rata (floor division).  Zero shares,
an empty balance or an empty pool redeem zero tokens. -/
def tokensForShares (p : SharePool) (amount : Nat) : Nat :=
  if amount = 0 ∨ p.Balance = 0 ∨ p.TotalShares = 0 then 0
  else amount * p.Balance / p.TotalShares

/-- Modelled from the spec: `SharePool.Deposit (shareDst, tokenSrc,
tokenAmount)` moves `tokenAmount` tokens from `tokenSrc` into the pool's
balance and mints the pro-rata shares into `shareDst`.  Returns the new
`(pool, shareDst, tokenSrc)` on success; fails when the share computation
fails or `tokenSrc` cannot cover `tokenAmount`. -/
def SharePool.Deposit (p : SharePool) (shareDst tokenSrc tokenAmount : Nat) :
    Option (SharePool × Nat × Nat) :=
  match sharesForTokens p tokenAmount with
  | none => none
  | some shares =>
    match qMove p.Balance tokenSrc tokenAmount with
    | none => none
    | some (bal', src') =>
      some ({ Balance := bal', TotalShares := p.TotalShares + shares }, shareDst + shares, src')

/-- Modelled from the spec: `SharePool.Withdraw (tokenDst, shareSrc,
shareAmount)` redeems `shareAmount` shares from `shareSrc` into tokens
moved from the pool's balance to `tokenDst`.  Returns the new
`(pool, tokenDst, shareSrc)` on success; fails when `shareSrc` or the
pool's total shares cannot cover `shareAmount`. -/
def SharePool.Withdraw (p : SharePool) (tokenDst shareSrc shareAmount : Nat) :
    Option (SharePool × Nat × Nat) :=
  let tokens := tokensForShares p shareAmount
  match qSub shareSrc shareAmount with
  | none => none
  | some shareSrc' =>
    match qSub p.TotalShares shareAmount with
    | none => none
    | some total' =>
      match qMove tokenDst p.Balance tokens with
      | none => none
      | some (dst', bal') =>
        some ({ Balance := bal', TotalShares := total' }, dst', shareSrc')

/-- A step of a commission rate schedule (`staking.CommissionRateStep`).
`Rate` is a fraction with denominator `CommissionRateDenominator`. -/
structure CommissionRateStep where
  Start : Nat
  Rate : Nat
deriving DecidableEq

/-- A step of a commission rate bound schedule
(`staking.CommissionRateBoundStep`). -/
structure CommissionRateBoundStep where
  Start : Nat
  RateMin : Nat
  RateMax : Nat
deriving DecidableEq

/-- `staking.CommissionSchedule`: rate steps and bound steps. -/
structure CommissionSchedule where
  Rates : List CommissionRateStep
  Bounds : List CommissionRateBoundStep
deriving DecidableEq

/-- The commission rate denominator (1000th of a percent). -/
def CommissionRateDenominator : Nat := 100000

/-- `staking.CommissionScheduleRules` consensus parameters. -/
structure CommissionScheduleRules where
  RateChangeInterval : Nat
  RateBoundLead : Nat
  MaxRateSteps : Nat
  MaxBoundSteps : Nat
deriving DecidableEq

/-- `validateComplexity`: the schedule must not exceed the configured step
counts. -/
def validateComplexity (cs : CommissionSchedule) (rules : CommissionScheduleRules) :
    Except String Unit :=
  if cs.Rates.length > rules.MaxRateSteps then
    .error "rate schedule steps exceed maximum"
  else if cs.Bounds.length > rules.MaxBoundSteps then
    .error "bound schedule steps exceed maximum"
  else
    .ok ()

/-- Whether a step start fails the strictly-increasing check against the
previous step's start (no previous step passes vacuously). -/
def notAfterPrev (prev : Option Nat) (start : Nat) : Bool :=
  match prev with
  | some p => start ≤ p
  | none => false

/-- The per-step checks of `validateNondegenerate` over the rate steps,
threading the previous step's start epoch.  The checks run in source
order: interval alignment, strictly-increasing starts, rate at most
unity. -/
def checkRateSteps (rules : CommissionScheduleRules) (prev : Option Nat) :
    List CommissionRateStep → Except String Unit
  | [] => .ok ()
  | step :: rest =>
    if step.Start % rules.RateChangeInterval ≠ 0 then
      .error "rate step start epoch not aligned with rate change interval"
    else if notAfterPrev prev step.Start then
      .error "rate step start epoch not after previous step start epoch"
    else if step.Rate > CommissionRateDenominator then
      .error "rate step rate over unity"
    else
      checkRateSteps rules (some step.Start) rest

/-- The per-step checks of `validateNondegenerate` over the bound steps, in
source order: interval alignment, strictly-increasing starts, minimum and
maximum rate at most unity, maximum at least minimum. -/
def checkBoundSteps (rules : CommissionScheduleRules) (prev : Option Nat) :
    List CommissionRateBoundStep → Except String Unit
  | [] => .ok ()
  | step :: rest =>
    if step.Start % rules.RateChangeInterval ≠ 0 then
      .error "bound step start epoch not aligned with rate change interval"
    else if notAfterPrev prev step.Start then
      .error "bound step start epoch not after previous step start epoch"
    else if step.RateMin > CommissionRateDenominator then
      .error "bound step minimum rate over unity"
    else if step.RateMax > CommissionRateDenominator then
      .error "bound step maximum rate over unity"
    else if step.RateMax < step.RateMin then
      .error "bound step maximum rate less than minimum rate"
    else
      checkBoundSteps rules (some step.Start) rest

/-- `validateNondegenerate` detects degenerate steps.  (With a zero
`RateChangeInterval` the source's modulo would fault; the embedding uses
`Nat` modulo, under which `x % 0 = x`.) -/
def validateNondegenerate (cs : CommissionSchedule) (rules : CommissionScheduleRules) :
    Except String Unit := do
  checkRateSteps rules none cs.Rates
  checkBoundSteps rules none cs.Bounds

/-- `validateAmendmentAcceptable`: an amendment may not alter the rate on
or before `now`, nor the bound on or before `now + RateBoundLead`. -/
def validateAmendmentAcceptable (cs : CommissionSchedule)
    (rules : CommissionScheduleRules) (now : Nat) : Except String Unit :=
  match cs.Rates with
  | r0 :: _ =>
    if r0.Start ≤ now then
      .error "rate schedule must not alter rate on or before now"
    else matchBounds cs rules now
  | [] => matchBounds cs rules now
where
  matchBounds (cs : CommissionSchedule) (rules : CommissionScheduleRules) (now : Nat) :
      Except String Unit :=
    match cs.Bounds with
    | b0 :: _ =>
      if b0.Start ≤ now + rules.RateBoundLead then
        .error "bound schedule must not alter bound on or before lead time"
      else .ok ()
    | [] => .ok ()

/-- The rate half of `Prune`: discard past steps that are not in effect
any more, keeping the step active at `now`. -/
def pruneRates : List CommissionRateStep → Nat → List CommissionRateStep
  | r0 :: r1 :: rest, now =>
    if r1.Start ≤ now then pruneRates (r1 :: rest) now else r0 :: r1 :: rest
  | l, _ => l

/-- The bound half of `Prune`. -/
def pruneBounds : List CommissionRateBoundStep → Nat → List CommissionRateBoundStep
  | b0 :: b1 :: rest, now =>
    if b1.Start ≤ now then pruneBounds (b1 :: rest) now else b0 :: b1 :: rest
  | l, _ => l

/-- `CommissionSchedule.Prune`. -/
def Prune (cs : CommissionSchedule) (now : Nat) : CommissionSchedule :=
  { Rates := pruneRates cs.Rates now, Bounds := pruneBounds cs.Bounds now }

/-- The splice of `amend` on one step list: keep the existing steps that
start strictly before the amendment's first step, then append the
amendment's steps.  An empty amendment list leaves the existing list
unchanged. -/
def amendSteps (start : α → Nat) (old amendment : List α) : List α :=
  match amendment with
  | [] => old
  | a0 :: _ => old.takeWhile (fun s => start s < start a0) ++ amendment

/-- `CommissionSchedule.amend`. -/
def amend (cs amendment : CommissionSchedule) : CommissionSchedule :=
  { Rates := amendSteps CommissionRateStep.Start cs.Rates amendment.Rates,
    Bounds := amendSteps CommissionRateBoundStep.Start cs.Bounds amendment.Bounds }

/-- The main loop of `validateWithinBound`, phrased over the current rate
and bound steps plus the remaining suffixes (the source walks the two step
arrays by index).  Each iteration checks the current rate against the
current bound, then advances whichever schedule changes next; on equal
next start epochs both advance, matching the two sequential `if`
statements of the source.  The `fuel` argument only drives structural
recursion: every iteration consumes one of the remaining steps, so
`rs.length + bs.length + 1` units always suffice (the fuel-exhausted
branch is unreachable, see `withinBoundLoopF_fuel`). -/
def withinBoundLoopF : Nat → CommissionRateStep → List CommissionRateStep →
    CommissionRateBoundStep → List CommissionRateBoundStep → Except String Unit
  | 0, _, _, _, _ => .error "out of fuel"
  | fuel + 1, r, rs, b, bs =>
    if r.Rate < b.RateMin then
      .error "rate less than minimum rate"
    else if r.Rate > b.RateMax then
      .error "rate greater than maximum rate"
    else
      match rs, bs with
      | [], [] => .ok ()
      | r' :: rs', [] => withinBoundLoopF fuel r' rs' b []
      | [], b' :: bs' => withinBoundLoopF fuel r [] b' bs'
      | r' :: rs', b' :: bs' =>
        if r'.Start ≤ b'.Start then
          if b'.Start ≤ r'.Start then
            withinBoundLoopF fuel r' rs' b' bs'
          else
            withinBoundLoopF fuel r' rs' b (b' :: bs')
        else
          withinBoundLoopF fuel r (r' :: rs') b' bs'

/-- The `validateWithinBound` loop with always-sufficient fuel. -/
def withinBoundLoop (r : CommissionRateStep) (rs : List CommissionRateStep)
    (b : CommissionRateBoundStep) (bs : List CommissionRateBoundStep) :
    Except String Unit :=
  withinBoundLoopF (rs.length + bs.length + 1) r rs b bs

/-- `validateWithinBound` detects rates out of bound.  The
`diagnosticTime` of the source only feeds error message text and is not
modelled. -/
def validateWithinBound (cs : CommissionSchedule) (now : Nat) : Except String Unit :=
  match cs.Rates, cs.Bounds with
  | [], [] => .ok ()
  | [], _ :: _ => .error "rates missing"
  | _ :: _, [] => .error "bounds missing"
  | r :: rs, b :: bs =>
    if (r.Start > now ∨ b.Start > now) ∧ r.Start ≠ b.Start then
      .error "rate schedule and bound schedule start epochs do not match"
    else
      withinBoundLoop r rs b bs

/-- `CommissionSchedule.AmendAndPruneAndValidate`, functionally: returns
the amended-and-pruned schedule on success.  (The source mutates the
schedule in place and may leave it amended on failure; the transaction
only persists it on success.) -/
def AmendAndPruneAndValidate (cs amendment : CommissionSchedule)
    (rules : CommissionScheduleRules) (now : Nat) : Except String CommissionSchedule := do
  validateComplexity amendment rules
  validateNondegenerate amendment rules
  validateAmendmentAcceptable amendment rules now
  let pruned := Prune cs now
  let amended := amend pruned amendment
  validateComplexity amended rules
  validateWithinBound amended now
  return amended

/-- `CommissionSchedule.PruneAndValidateForGenesis`, functionally: returns
the pruned schedule on success. -/
def PruneAndValidateForGenesis (cs : CommissionSchedule)
    (rules : CommissionScheduleRules) (now : Nat) : Except String CommissionSchedule := do
  validateComplexity cs rules
  validateNondegenerate cs rules
  let pruned := Prune cs now
  validateWithinBound pruned now
  return pruned

/-- The scan of `CommissionSchedule.CurrentRate`: starting from step `s`,
walk the remaining steps while they have started (start epoch at most
`now`), returning the latest started step. -/
def latestStartedRate (s : CommissionRateStep) (rest : List CommissionRateStep)
    (now : Nat) : CommissionRateStep :=
  match rest with
  | [] => s
  | s' :: rest' => if s'.Start ≤ now then latestStartedRate s' rest' now else s

/-- `CommissionSchedule.CurrentRate`: the rate of the latest rate step
that has started, or `none` if no step has started. -/
def CurrentRate (cs : CommissionSchedule) (now : Nat) : Option Nat :=
  match cs.Rates with
  | [] => none
  | r :: rs => if r.Start > now then none else some (latestStartedRate r rs now).Rate

/-- The bound analogue of the `CurrentRate` scan. -/
def latestStartedBound (s : CommissionRateBoundStep) (rest : List CommissionRateBoundStep)
    (now : Nat) : CommissionRateBoundStep :=
  match rest with
  | [] => s
  | s' :: rest' => if s'.Start ≤ now then latestStartedBound s' rest' now else s

/-- The active bound step at `now`, defined by the same
latest-started-step scan as the source's `CurrentRate`. -/
def CurrentBound (cs : CommissionSchedule) (now : Nat) : Option CommissionRateBoundStep :=
  match cs.Bounds with
  | [] => none
  | b :: bs => if b.Start > now then none else some (latestStartedBound b bs now)

/-- A general account (`staking.GeneralAccount`): balance and nonce. -/
structure GeneralAccount where
  Balance : Nat
  Nonce : Nat
deriving DecidableEq

/-- A stake-accumulator claim.  Modelled from the spec: the stake
accumulator is "a list of claims, each a tuple (claim_id,
set<ThresholdKind>)"; the accumulator type itself is not under `src/`
(the repository CHANGELOG documents its addition).  Threshold kinds are
embedded as `Nat`. -/
structure StakeClaim where
  id : Nat
  kinds : List Nat
deriving DecidableEq

/-- An escrow account: active and debonding share pools, the commission
schedule, and (modelled from the spec) the stake accumulator. -/
structure EscrowAccount where
  Active : SharePool
  Debonding : SharePool
  CommissionSchedule : CommissionSchedule
  StakeAccumulator : List StakeClaim
deriving DecidableEq

/-- `staking.Account`. -/
structure Account where
  General : GeneralAccount
  Escrow : EscrowAccount
deriving DecidableEq

/-- A debonding delegation (`staking.DebondingDelegation`): debonding
shares plus the epoch at which they may be reclaimed. -/
structure DebondingDelegation where
  Shares : Nat
  DebondEndTime : Nat
deriving DecidableEq

/-- Consensus parameters relevant to the staking transactions
(`staking.ConsensusParameters`).  `UndisableTransfersFrom` is `none` when
the whitelist map is nil.  `Thresholds` is modelled from the spec: the map
from threshold kind to the configured stake threshold. -/
structure ConsensusParameters where
  DisableTransfers : Bool
  UndisableTransfersFrom : Option (Nat → Bool)
  DisableDelegation : Bool
  MinDelegationAmount : Nat
  Thresholds : Nat → Nat
  CommissionScheduleRules : CommissionScheduleRules

/-- The staking application state: the account store, delegation store,
debonding-delegation store (keyed by delegator, escrow and the creating
nonce) and the total supply.  Missing entries deserialize to zero values,
hence total functions. -/
structure StakingState where
  accounts : Nat → Account
  delegationShares : Nat × Nat → Nat
  debonding : Nat × Nat × Nat → Option DebondingDelegation
  totalSupply : Nat

/-- `state.SetAccount`. -/
def setAccount (st : StakingState) (id : Nat) (a : Account) : StakingState :=
  { st with accounts := Function.update st.accounts id a }

/-- `state.SetDelegation` (only the share count is stored). -/
def setDelegation (st : StakingState) (delegator escrow shares : Nat) : StakingState :=
  { st with delegationShares := Function.update st.delegationShares (delegator, escrow) shares }

/-- `state.SetDebondingDelegation`, keyed by delegator, escrow and nonce. -/
def setDebondingDelegation (st : StakingState) (delegator escrow nonce : Nat)
    (d : DebondingDelegation) : StakingState :=
  { st with debonding := Function.update st.debonding (delegator, escrow, nonce) (some d) }

/-- `isTransferPermitted` from
`go/consensus/tendermint/apps/staking/transactions.go`: transfers are
permitted unless `DisableTransfers` is set and the sender is not in the
(non-nil) `UndisableTransfersFrom` map. -/
def isTransferPermitted (params : ConsensusParameters) (fromID : Nat) : Bool :=
  if params.DisableTransfers then
    match params.UndisableTransfersFrom with
    | some allow => allow fromID
    | none => false
  else
    true

/-- The `staking.Transfer` transaction body. -/
structure Transfer where
  To : Nat
  Tokens : Nat

/-- The `transfer` transaction handler.  `signer` is the transaction
signer's account id. -/
def transfer (params : ConsensusParameters) (signer : Nat) (xfer : Transfer)
    (st : StakingState) : StakingState × Option SError :=
  if ¬ isTransferPermitted params signer then
    (st, some .forbidden)
  else
    let fromAcct := st.accounts signer
    if signer = xfer.To then
      -- Handle transfer to self as just a balance check.
      if fromAcct.General.Balance < xfer.Tokens then
        (st, some .insufficientBalance)
      else
        (setAccount st signer fromAcct, none)
    else
      let toAcct := st.accounts xfer.To
      match qMove toAcct.General.Balance fromAcct.General.Balance xfer.Tokens with
      | none => (st, some .insufficientBalance)
      | some (toBal, fromBal) =>
        let st₁ := setAccount st xfer.To
          { toAcct with General := { toAcct.General with Balance := toBal } }
        let st₂ := setAccount st₁ signer
          { fromAcct with General := { fromAcct.General with Balance := fromBal } }
        (st₂, none)

/-- The `staking.Burn` transaction body. -/
structure Burn where
  Tokens : Nat

/-- The `burn` transaction handler.  Note that the source deliberately
ignores the error of the total-supply subtraction (`_ =
totalSupply.Sub(&burn.Tokens)`), leaving the total supply unchanged if it
cannot cover the burn. -/
def burn (signer : Nat) (b : Burn) (st : StakingState) : StakingState × Option SError :=
  let fromAcct := st.accounts signer
  match qSub fromAcct.General.Balance b.Tokens with
  | none => (st, some .insufficientBalance)
  | some bal' =>
    let supply' :=
      match qSub st.totalSupply b.Tokens with
      | none => st.totalSupply
      | some s => s
    let st₁ := setAccount st signer
      { fromAcct with General := { fromAcct.General with Balance := bal' } }
    ({ st₁ with totalSupply := supply' }, none)

/-- Modelled from the spec: the stake-accumulator requirement is the sum
of the configured thresholds over the distinct threshold kinds appearing
in the account's claims ("the union is taken over every claim currently
held"). -/
def thresholdSum (thresholds : Nat → Nat) (claims : List StakeClaim) : Nat :=
  (((claims.map StakeClaim.kinds).flatten).dedup.map thresholds).sum

/-- The `staking.ReclaimEscrow` transaction body. -/
structure ReclaimEscrow where
  Account : Nat
  Shares : Nat

/-- The `reclaimEscrow` transaction handler.  `signer` is the reclaiming
account (`toID` in the source); `epoch` and `debondingInterval` are read
from the epochtime and staking state.  In the source, when the signer
reclaims from its own escrow, `from` and `to` alias the same object, so
the escrow-pool updates are visible through the single `SetAccount`; the
embedding reproduces this with the `toAcct'` selection.

The stake-accumulator check after the active-pool withdrawal is modelled
from the spec ("Reclaim that would bring the delegator's remaining claims
under the stake-accumulator requirement fails with `InsufficientStake`"):
the accumulator code of the repository is not under `src/`.

The source propagates the inner pool/quantity error of a failed
`Withdraw` or `Deposit`; the embedding collapses those inner errors into
`invalidArgument` (no claim distinguishes them).  The final zero-check on
the moved tokens returns `ErrInvalidArgument` in the source as well. -/
def reclaimEscrow (params : ConsensusParameters) (signer : Nat) (reclaim : ReclaimEscrow)
    (epoch debondingInterval : Nat) (st : StakingState) : StakingState × Option SError :=
  -- No sense if there is nothing to reclaim.
  if reclaim.Shares = 0 then
    (st, some .invalidArgument)
  else
    let toAcct := st.accounts signer
    if signer ≠ reclaim.Account ∧ params.DisableDelegation then
      (st, some .forbidden)
    else
      let fromAcct := if signer = reclaim.Account then toAcct else st.accounts reclaim.Account
      let delShares := st.delegationShares (signer, reclaim.Account)
      let debondEnd := epoch + debondingInterval
      match fromAcct.Escrow.Active.Withdraw 0 delShares reclaim.Shares with
      | none => (st, some .invalidArgument)
      | some (active', tokens, delShares') =>
        -- Modelled from the spec: stake-accumulator requirement check.
        if active'.Balance < thresholdSum params.Thresholds fromAcct.Escrow.StakeAccumulator then
          (st, some .insufficientStake)
        else
          match fromAcct.Escrow.Debonding.Deposit 0 tokens tokens with
          | none => (st, some .invalidArgument)
          | some (debonding', debShares, tokensLeft) =>
            if tokensLeft ≠ 0 then
              (st, some .invalidArgument)
            else
              let fromAcct' := { fromAcct with
                Escrow := { fromAcct.Escrow with Active := active', Debonding := debonding' } }
              let toAcct' := if signer = reclaim.Account then fromAcct' else toAcct
              let deb : DebondingDelegation := { Shares := debShares, DebondEndTime := debondEnd }
              let st₁ := setDebondingDelegation st signer reclaim.Account toAcct.General.Nonce deb
              let st₂ := setDelegation st₁ signer reclaim.Account delShares'
              let st₃ := setAccount st₂ signer toAcct'
              let st₄ := if signer = reclaim.Account then st₃
                         else setAccount st₃ reclaim.Account fromAcct'
              (st₄, none)

/-- The `staking.AmendCommissionSchedule` transaction body. -/
structure AmendCommissionSchedule where
  Amendment : CommissionSchedule

/-- The `amendCommissionSchedule` transaction handler: runs
`AmendAndPruneAndValidate` against the signer's stored schedule at the
next block's epoch and persists the account only on success. -/
def amendCommissionScheduleTx (params : ConsensusParameters) (signer : Nat)
    (tx : AmendCommissionSchedule) (epoch : Nat) (st : StakingState) :
    StakingState × Option SError :=
  match AmendAndPruneAndValidate (st.accounts signer).Escrow.CommissionSchedule tx.Amendment
      params.CommissionScheduleRules epoch with
  | .error msg => (st, some (.commission msg))
  | .ok cs' =>
    (setAccount st signer
      { st.accounts signer with
        Escrow := { (st.accounts signer).Escrow with CommissionSchedule := cs' } }, none)

/-- Address size in bytes (`address.Size`). -/
def addressSize : Nat := 20

/-- Errors of the address codec: `ErrMalformed` from `address.go`, plus
the base64 decoding error surfaced by `UnmarshalText`. -/
inductive AddrError where
  | malformed
  | badEncoding
deriving DecidableEq

/-- A 20-byte address (`address.Address`).  Bytes are embedded as `Nat`;
byte-ness (each entry below 256) is stated where the text encoding needs
it. -/
structure Address where
  bytes : List Nat
  size_eq : bytes.length = addressSize

/-- `Address.MarshalBinary`: a copy of the raw bytes. -/
def MarshalBinary (a : Address) : List Nat :=
  a.bytes

/-- `Address.UnmarshalBinary`: fails with `ErrMalformed` unless the input
is exactly `addressSize` bytes. -/
def UnmarshalBinary (data : List Nat) : Except AddrError Address :=
  if h : data.length = addressSize then
    .ok ⟨data, h⟩
  else
    .error .malformed

/-- The standard base64 alphabet, as character codes. -/
def b64Alphabet : List Nat :=
  [65, 66, 67, 68, 69, 70, 71, 72, 73, 74, 75, 76, 77, 78, 79, 80, 81, 82,
   83, 84, 85, 86, 87, 88, 89, 90,
   97, 98, 99, 100, 101, 102, 103, 104, 105, 106, 107, 108, 109, 110, 111,
   112, 113, 114, 115, 116, 117, 118, 119, 120, 121, 122,
   48, 49, 50, 51, 52, 53, 54, 55, 56, 57, 43, 47]

/-- The character code of the base64 padding character. -/
def b64Pad : Nat := 61

/-- Maps a sextet value to its base64 character code. -/
def b64EncodeChar (s : Nat) : Nat :=
  b64Alphabet.getD s 0

/-- Maps a base64 character code back to its sextet value; `none` for a
character outside the alphabet. -/
def b64DecodeChar (c : Nat) : Option Nat :=
  b64Alphabet.findIdx? (fun x => x = c)

/-- Packs a byte list into base64 sextet values, three bytes at a time; a
final group of one or two bytes yields two or three sextets. -/
def b64Sextets : List Nat → List Nat
  | a :: b :: c :: rest =>
    a / 4 :: (a % 4 * 16 + b / 16) :: (b % 16 * 4 + c / 64) :: c % 64 :: b64Sextets rest
  | [a, b] => [a / 4, a % 4 * 16 + b / 16, b % 16 * 4]
  | [a] => [a / 4, a % 4 * 16]
  | [] => []

/-- `base64.StdEncoding.EncodeToString` over byte lists: sextet packing,
alphabet mapping and `=` padding to a multiple of four characters. -/
def b64Encode (bytes : List Nat) : List Nat :=
  (b64Sextets bytes).map b64EncodeChar ++ List.replicate ((3 - bytes.length % 3) % 3) b64Pad

/-- Unpacks base64 sextet values back into bytes (inverse of
`b64Sextets`); a trailing single sextet is malformed. -/
def b64Unpack : List Nat → Except AddrError (List Nat)
  | s0 :: s1 :: s2 :: s3 :: rest => do
    let tail ← b64Unpack rest
    .ok ((s0 * 4 + s1 / 16) :: (s1 % 16 * 16 + s2 / 4) :: (s2 % 4 * 64 + s3) :: tail)
  | [s0, s1, s2] => .ok [s0 * 4 + s1 / 16, s1 % 16 * 16 + s2 / 4]
  | [s0, s1] => .ok [s0 * 4 + s1 / 16]
  | [_] => .error .badEncoding
  | [] => .ok []

/-- Strips the trailing run of padding characters from a base64 text. -/
def b64StripPad : List Nat → List Nat
  | [] => []
  | c :: rest =>
    match b64StripPad rest with
    | [] => if c = b64Pad then [] else [c]
    | r => c :: r

/-- Maps base64 characters back to sextets, failing on any character
outside the alphabet. -/
def b64DecodeChars : List Nat → Except AddrError (List Nat)
  | [] => .ok []
  | c :: rest =>
    match b64DecodeChar c with
    | none => .error .badEncoding
    | some s => do
      let tail ← b64DecodeChars rest
      .ok (s :: tail)

/-- `base64.StdEncoding.DecodeString` over character-code lists: strip
padding, map characters to sextets, unpack into bytes. -/
def b64Decode (text : List Nat) : Except AddrError (List Nat) := do
  let sextets ← b64DecodeChars (b64StripPad text)
  b64Unpack sextets

/-- `Address.MarshalText`: the base64 encoding of the address bytes. -/
def MarshalText (a : Address) : List Nat :=
  b64Encode a.bytes

/-- `Address.UnmarshalText`: base64-decode, then `UnmarshalBinary`. -/
def UnmarshalText (text : List Nat) : Except AddrError Address := do
  let b ← b64Decode text
  UnmarshalBinary b

/-- `address.NewFromPublicKey`: the public key's hash truncated to
`addressSize` bytes, fed through `UnmarshalBinary`.  The hash function is
an external crypto primitive and is passed as a parameter; `Truncate`
takes the first `addressSize` bytes. -/
def NewFromPublicKey (hashFn : List Nat → List Nat) (pk : List Nat) :
    Except AddrError Address :=
  UnmarshalBinary ((hashFn pk).take addressSize)

/-! ## Helper lemmas -/

@[simp]
theorem setAccount_same (st : StakingState) (id : Nat) (a : Account) :
    (setAccount st id a).accounts id = a := by
  simp [setAccount]

theorem setAccount_other (st : StakingState) (id x : Nat) (a : Account) (h : x ≠ id) :
    (setAccount st id a).accounts x = st.accounts x := by
  simp [setAccount, Function.update_noteq h]

theorem setAccount_id_same (st : StakingState) (id x : Nat) :
    (setAccount st id (st.accounts id)).accounts x = st.accounts x := by
  by_cases hx : x = id
  · subst hx; simp
  · rw [setAccount_other _ _ _ _ hx]

theorem qSub_le {q n r : Nat} (h : qSub q n = some r) : n ≤ q ∧ r = q - n := by
  unfold qSub at h
  split at h
  · injection h with h'
    exact ⟨by assumption, h'.symm⟩
  · exact absurd h (by simp)

/-! ## Claim theorems -/

/-- Claim C4: a `Burn` whose amount is covered by the sender's general
balance succeeds and decrements both the sender's general balance and the
total supply by exactly that amount; a `Burn` exceeding the balance fails
on underflow and leaves the state unchanged.  The hypothesis that the
balance is covered by the total supply is an instance of the spec's
supply invariant (total supply is the sum of all balances and pools). -/
theorem burn_balance_and_supply (signer : Nat) (b : Burn) (st : StakingState)
    (hsupply : (st.accounts signer).General.Balance ≤ st.totalSupply) :
    (b.Tokens ≤ (st.accounts signer).General.Balance →
      (burn signer b st).2 = none ∧
      ((burn signer b st).1.accounts signer).General.Balance
        = (st.accounts signer).General.Balance - b.Tokens ∧
      (burn signer b st).1.totalSupply = st.totalSupply - b.Tokens) ∧
    ((st.accounts signer).General.Balance < b.Tokens →
      burn signer b st = (st, some .insufficientBalance)) := by
  constructor
  · intro hle
    have hsup : b.Tokens ≤ st.totalSupply := le_trans hle hsupply
    refine ⟨by simp [burn, qSub, hle, hsup], ?_, by simp [burn, qSub, hle, hsup]⟩
    simp [burn, qSub, hle, hsup, setAccount]
  · intro hlt
    have hn : ¬ b.Tokens ≤ (st.accounts signer).General.Balance := by omega
    simp [burn, qSub, hn]

/-- Witness for `burn_balance_and_supply` at a concrete state. -/
theorem burn_balance_and_supply_witness :
    let st : StakingState :=
      { accounts := fun _ => ⟨⟨7, 0⟩, ⟨⟨0, 0⟩, ⟨0, 0⟩, ⟨[], []⟩, []⟩⟩,
        delegationShares := fun _ => 0,
        debonding := fun _ => none,
        totalSupply := 10 }
    (5 ≤ (st.accounts 1).General.Balance →
      (burn 1 ⟨5⟩ st).2 = none ∧
      ((burn 1 ⟨5⟩ st).1.accounts 1).General.Balance
        = (st.accounts 1).General.Balance - 5 ∧
      (burn 1 ⟨5⟩ st).1.totalSupply = st.totalSupply - 5) ∧
    ((st.accounts 1).General.Balance < 5 →
      burn 1 ⟨5⟩ st = (st, some .insufficientBalance)) :=
  burn_balance_and_supply 1 ⟨5⟩ _ (by decide)

/-- Claim C5: a self-transfer is only a balance check — it succeeds
exactly when the sender's general balance covers the amount, fails with
`InsufficientBalance` otherwise, and never changes any account balance —
while a transfer to a distinct account moves exactly the amount from the
sender's general balance to the recipient's, failing with
`InsufficientBalance` (and changing nothing) when funds are insufficient.
The permission gate (claim C6) is assumed passed. -/
theorem transfer_moves_balances (params : ConsensusParameters) (signer : Nat)
    (xfer : Transfer) (st : StakingState)
    (hperm : isTransferPermitted params signer = true) :
    (signer = xfer.To →
      (((transfer params signer xfer st).2 = none ↔
          xfer.Tokens ≤ (st.accounts signer).General.Balance) ∧
        ((st.accounts signer).General.Balance < xfer.Tokens →
          transfer params signer xfer st = (st, some .insufficientBalance)) ∧
        (∀ x, ((transfer params signer xfer st).1.accounts x).General.Balance
          = (st.accounts x).General.Balance))) ∧
    (signer ≠ xfer.To →
      (xfer.Tokens ≤ (st.accounts signer).General.Balance →
        (transfer params signer xfer st).2 = none ∧
        ((transfer params signer xfer st).1.accounts signer).General.Balance
          = (st.accounts signer).General.Balance - xfer.Tokens ∧
        ((transfer params signer xfer st).1.accounts xfer.To).General.Balance
          = (st.accounts xfer.To).General.Balance + xfer.Tokens ∧
        (∀ x, x ≠ signer → x ≠ xfer.To →
          (transfer params signer xfer st).1.accounts x = st.accounts x)) ∧
      ((st.accounts signer).General.Balance < xfer.Tokens →
        transfer params signer xfer st = (st, some .insufficientBalance))) := by
  constructor
  · intro hself
    subst hself
    by_cases hbal : xfer.Tokens ≤ (st.accounts xfer.To).General.Balance
    · have hnot : ¬ (st.accounts xfer.To).General.Balance < xfer.Tokens := by omega
      refine ⟨by simp [transfer, hperm, hnot, hbal], by omega, ?_⟩
      intro x
      simp [transfer, hperm, hnot, setAccount_id_same]
    · have hlt : (st.accounts xfer.To).General.Balance < xfer.Tokens := by omega
      refine ⟨by simp [transfer, hperm, hlt], fun _ => by simp [transfer, hperm, hlt], ?_⟩
      intro x
      simp [transfer, hperm, hlt]
  · intro hne
    constructor
    · intro hle
      refine ⟨?_, ?_, ?_, ?_⟩
      · simp [transfer, hperm, hne, qMove, qSub, hle]
      · simp [transfer, hperm, hne, qMove, qSub, hle]
      · simp only [transfer, hperm, Bool.true_eq_false, not_true_eq_false, if_false,
          if_neg hne, qMove, qSub, if_pos hle]
        rw [setAccount_other _ _ _ _ (Ne.symm hne), setAccount_same]
      · intro x hx1 hx2
        simp only [transfer, hperm, Bool.true_eq_false, not_true_eq_false, if_false,
          if_neg hne, qMove, qSub, if_pos hle]
        rw [setAccount_other _ _ _ _ hx1, setAccount_other _ _ _ _ hx2]
    · intro hlt
      have hn : ¬ xfer.Tokens ≤ (st.accounts signer).General.Balance := by omega
      simp [transfer, hperm, hne, qMove, qSub, hn]

/-- Witness for `transfer_moves_balances` at a concrete state. -/
theorem transfer_moves_balances_witness :
    let params : ConsensusParameters :=
      { DisableTransfers := false, UndisableTransfersFrom := none,
        DisableDelegation := false, MinDelegationAmount := 0,
        Thresholds := fun _ => 0, CommissionScheduleRules := ⟨1, 0, 4, 4⟩ }
    let st : StakingState :=
      { accounts := fun _ => ⟨⟨7, 0⟩, ⟨⟨0, 0⟩, ⟨0, 0⟩, ⟨[], []⟩, []⟩⟩,
        delegationShares := fun _ => 0,
        debonding := fun _ => none,
        totalSupply := 10 }
    (1 ≠ (2 : Nat) →
      (5 ≤ (st.accounts 1).General.Balance →
        (transfer params 1 ⟨2, 5⟩ st).2 = none ∧
        ((transfer params 1 ⟨2, 5⟩ st).1.accounts 1).General.Balance
          = (st.accounts 1).General.Balance - 5 ∧
        ((transfer params 1 ⟨2, 5⟩ st).1.accounts 2).General.Balance
          = (st.accounts 2).General.Balance + 5 ∧
        (∀ x, x ≠ 1 → x ≠ 2 →
          (transfer params 1 ⟨2, 5⟩ st).1.accounts x = st.accounts x)) ∧
      ((st.accounts 1).General.Balance < 5 →
        transfer params 1 ⟨2, 5⟩ st = (st, some .insufficientBalance))) :=
  (transfer_moves_balances _ 1 ⟨2, 5⟩ _ (by decide)).2

/-- Claim C6: when transfers are disabled and the sender is not in the
`UndisableTransfersFrom` whitelist, a transfer fails with `Forbidden`
without touching the state; a whitelisted sender, or any sender when
transfers are not disabled, passes the permission check. -/
theorem transfer_permission (params : ConsensusParameters) (signer : Nat)
    (xfer : Transfer) (st : StakingState) :
    (params.DisableTransfers = true →
      (match params.UndisableTransfersFrom with
        | some allow => allow signer = false
        | none => True) →
      transfer params signer xfer st = (st, some .forbidden)) ∧
    ((∃ allow, params.UndisableTransfersFrom = some allow ∧ allow signer = true) →
      isTransferPermitted params signer = true) ∧
    (params.DisableTransfers = false → isTransferPermitted params signer = true) := by
  refine ⟨?_, ?_, ?_⟩
  · intro hdis hallow
    have hperm : isTransferPermitted params signer = false := by
      unfold isTransferPermitted
      rw [hdis]
      simp only [if_true]
      match hm : params.UndisableTransfersFrom with
      | some allow => rw [hm] at hallow; exact hallow
      | none => rfl
    simp [transfer, hperm]
  · rintro ⟨allow, hm, ha⟩
    unfold isTransferPermitted
    rw [hm]
    split <;> simp [ha]
  · intro hdis
    simp [isTransferPermitted, hdis]

/-- Witness for `transfer_permission` at a concrete state. -/
theorem transfer_permission_witness :
    let params : ConsensusParameters :=
      { DisableTransfers := true, UndisableTransfersFrom := some (fun x => x = 3),
        DisableDelegation := false, MinDelegationAmount := 0,
        Thresholds := fun _ => 0, CommissionScheduleRules := ⟨1, 0, 4, 4⟩ }
    let st : StakingState :=
      { accounts := fun _ => ⟨⟨7, 0⟩, ⟨⟨0, 0⟩, ⟨0, 0⟩, ⟨[], []⟩, []⟩⟩,
        delegationShares := fun _ => 0,
        debonding := fun _ => none,
        totalSupply := 10 }
    transfer params 1 ⟨2, 5⟩ st = (st, some .forbidden) ∧
    isTransferPermitted params 3 = true :=
  ⟨(transfer_permission _ 1 ⟨2, 5⟩ _).1 (by decide) (by decide),
   (transfer_permission _ 3 ⟨2, 5⟩
     { accounts := fun _ => ⟨⟨7, 0⟩, ⟨⟨0, 0⟩, ⟨0, 0⟩, ⟨[], []⟩, []⟩⟩,
       delegationShares := fun _ => 0,
       debonding := fun _ => none,
       totalSupply := 10 }).2.1 ⟨_, rfl, by decide⟩⟩

/-- Claim C2: a failing `AmendCommissionSchedule` transaction (any
validation failure inside `AmendAndPruneAndValidate`) leaves the state —
in particular the account's stored commission schedule — unchanged. -/
theorem amend_failure_leaves_schedule (params : ConsensusParameters) (signer : Nat)
    (tx : AmendCommissionSchedule) (epoch : Nat) (st : StakingState)
    (hfail : (amendCommissionScheduleTx params signer tx epoch st).2 ≠ none) :
    (amendCommissionScheduleTx params signer tx epoch st).1 = st ∧
    ((amendCommissionScheduleTx params signer tx epoch st).1.accounts signer).Escrow.CommissionSchedule
      = (st.accounts signer).Escrow.CommissionSchedule := by
  unfold amendCommissionScheduleTx at hfail ⊢
  cases hA : AmendAndPruneAndValidate (st.accounts signer).Escrow.CommissionSchedule
      tx.Amendment params.CommissionScheduleRules epoch with
  | error msg => exact ⟨rfl, rfl⟩
  | ok cs' => rw [hA] at hfail; simp at hfail

/-- Witness for `amend_failure_leaves_schedule`: amending with a rate
step that starts at the current epoch is rejected. -/
theorem amend_failure_leaves_schedule_witness :
    let params : ConsensusParameters :=
      { DisableTransfers := false, UndisableTransfersFrom := none,
        DisableDelegation := false, MinDelegationAmount := 0,
        Thresholds := fun _ => 0, CommissionScheduleRules := ⟨10, 0, 4, 4⟩ }
    let st : StakingState :=
      { accounts := fun _ => ⟨⟨7, 0⟩, ⟨⟨0, 0⟩, ⟨0, 0⟩, ⟨[], []⟩, []⟩⟩,
        delegationShares := fun _ => 0,
        debonding := fun _ => none,
        totalSupply := 10 }
    let tx : AmendCommissionSchedule := ⟨⟨[⟨10, 5⟩], []⟩⟩
    (amendCommissionScheduleTx params 1 tx 10 st).1 = st ∧
    ((amendCommissionScheduleTx params 1 tx 10 st).1.accounts 1).Escrow.CommissionSchedule
      = (st.accounts 1).Escrow.CommissionSchedule :=
  amend_failure_leaves_schedule _ 1 _ 10 _ (by decide)

/-- Claim C10 counterexample: with delegation disabled and an escrow
account distinct from the signer, a `ReclaimEscrow` of zero shares fails
with `InvalidArgument` — not `Forbidden` — because the zero-shares check
precedes the delegation permission check. -/
theorem reclaim_zero_shares_not_forbidden :
    let params : ConsensusParameters :=
      { DisableTransfers := false, UndisableTransfersFrom := none,
        DisableDelegation := true, MinDelegationAmount := 0,
        Thresholds := fun _ => 0, CommissionScheduleRules := ⟨1, 0, 4, 4⟩ }
    let st : StakingState :=
      { accounts := fun _ => ⟨⟨7, 0⟩, ⟨⟨0, 0⟩, ⟨0, 0⟩, ⟨[], []⟩, []⟩⟩,
        delegationShares := fun _ => 0,
        debonding := fun _ => none,
        totalSupply := 10 }
    (reclaimEscrow params 1 ⟨2, 0⟩ 0 0 st).2 = some SError.invalidArgument ∧
    (reclaimEscrow params 1 ⟨2, 0⟩ 0 0 st).2 ≠ some SError.forbidden := by
  exact ⟨by decide, by decide⟩

/-- Claim C10 (amended with nonzero shares): when `DisableDelegation` is
set, every `ReclaimEscrow` with nonzero shares whose escrow account
differs from the signer fails with `Forbidden` leaving the state
unchanged, while a reclaim from the signer's own escrow account is not
subject to the check (its outcome is independent of
`DisableDelegation`). -/
theorem reclaim_delegation_gate :
    (∀ params : ConsensusParameters, ∀ signer : Nat, ∀ rc : ReclaimEscrow, ∀ epoch di : Nat,
      ∀ st : StakingState, params.DisableDelegation = true → signer ≠ rc.Account →
      rc.Shares ≠ 0 → reclaimEscrow params signer rc epoch di st = (st, some .forbidden)) ∧
    (∀ params : ConsensusParameters, ∀ signer sh epoch di : Nat, ∀ st : StakingState,
      ∀ dd : Bool,
      reclaimEscrow params signer ⟨signer, sh⟩ epoch di st
        = reclaimEscrow { params with DisableDelegation := dd } signer ⟨signer, sh⟩ epoch di st) := by
  constructor
  · intro params signer rc epoch di st hdd hne hsh
    simp [reclaimEscrow, hsh, hne, hdd]
  · intro params signer sh epoch di st dd
    simp [reclaimEscrow]

/-- Witness for `reclaim_delegation_gate` at concrete inputs. -/
theorem reclaim_delegation_gate_witness :
    let params : ConsensusParameters :=
      { DisableTransfers := false, UndisableTransfersFrom := none,
        DisableDelegation := true, MinDelegationAmount := 0,
        Thresholds := fun _ => 0, CommissionScheduleRules := ⟨1, 0, 4, 4⟩ }
    let st : StakingState :=
      { accounts := fun _ => ⟨⟨7, 0⟩, ⟨⟨0, 0⟩, ⟨0, 0⟩, ⟨[], []⟩, []⟩⟩,
        delegationShares := fun _ => 0,
        debonding := fun _ => none,
        totalSupply := 10 }
    reclaimEscrow params 1 ⟨2, 3⟩ 0 0 st = (st, some .forbidden) ∧
    reclaimEscrow params 1 ⟨1, 3⟩ 0 0 st
      = reclaimEscrow { params with DisableDelegation := false } 1 ⟨1, 3⟩ 0 0 st :=
  ⟨reclaim_delegation_gate.1 _ 1 ⟨2, 3⟩ 0 0 _ (by decide) (by decide) (by decide),
   reclaim_delegation_gate.2 _ 1 3 0 0 _ false⟩

/-- Claim C1 (spec-modelled stake-accumulator check): a `ReclaimEscrow`
that reaches the accumulator check and whose active-pool withdrawal would
leave the escrow's active balance below the sum of configured thresholds
over the distinct kinds in the account's stake accumulator fails with
`InsufficientStake` and leaves the state unchanged. -/
theorem reclaim_insufficient_stake (params : ConsensusParameters) (signer : Nat)
    (rc : ReclaimEscrow) (epoch di : Nat) (st : StakingState)
    (active' : SharePool) (tokens delShares' : Nat)
    (hsh : rc.Shares ≠ 0)
    (hperm : signer = rc.Account ∨ params.DisableDelegation = false)
    (hw : (st.accounts rc.Account).Escrow.Active.Withdraw 0
      (st.delegationShares (signer, rc.Account)) rc.Shares = some (active', tokens, delShares'))
    (hlow : active'.Balance
      < thresholdSum params.Thresholds (st.accounts rc.Account).Escrow.StakeAccumulator) :
    reclaimEscrow params signer rc epoch di st = (st, some SError.insufficientStake) := by
  have hcond : ¬ (signer ≠ rc.Account ∧ params.DisableDelegation = true) := by
    rcases hperm with h | h
    · simp [h]
    · simp [h]
  have hfrom : (if signer = rc.Account then st.accounts signer else st.accounts rc.Account)
      = st.accounts rc.Account := by
    split
    · rename_i h; rw [h]
    · rfl
  simp only [reclaimEscrow, if_neg hsh]
  rw [if_neg (by simpa using hcond), hfrom, hw]
  simp only []
  rw [if_pos hlow]

/-- Witness for `reclaim_insufficient_stake` at a concrete state: the
escrow holds one claim of kind 0 with threshold 100; reclaiming 10 of 50
shares would leave an active balance of 40. -/
theorem reclaim_insufficient_stake_witness :
    let params : ConsensusParameters :=
      { DisableTransfers := false, UndisableTransfersFrom := none,
        DisableDelegation := false, MinDelegationAmount := 0,
        Thresholds := fun _ => 100, CommissionScheduleRules := ⟨1, 0, 4, 4⟩ }
    let st : StakingState :=
      { accounts := fun _ => ⟨⟨7, 0⟩, ⟨⟨50, 50⟩, ⟨0, 0⟩, ⟨[], []⟩, [⟨0, [0]⟩]⟩⟩,
        delegationShares := fun _ => 50,
        debonding := fun _ => none,
        totalSupply := 10 }
    reclaimEscrow params 1 ⟨1, 10⟩ 0 0 st = (st, some SError.insufficientStake) :=
  reclaim_insufficient_stake _ 1 ⟨1, 10⟩ 0 0 _ ⟨40, 40⟩ 10 40
    (by decide) (Or.inl rfl) (by decide) (by decide)

theorem qMove_spec {dst src n : Nat} {pr : Nat × Nat} (h : qMove dst src n = some pr) :
    pr = (dst + n, src - n) ∧ n ≤ src := by
  unfold qMove at h
  cases hq : qSub src n with
  | none => rw [hq] at h; exact absurd h (by simp)
  | some s' =>
    rw [hq] at h
    obtain ⟨hle, hs⟩ := qSub_le hq
    simp only [Option.some.injEq] at h
    subst hs
    exact ⟨h.symm, hle⟩

theorem Deposit_balance_shares {p : SharePool} {sd src amt : Nat}
    {p' : SharePool} {sd' src' : Nat}
    (h : SharePool.Deposit p sd src amt = some (p', sd', src')) :
    p'.Balance = p.Balance + amt ∧ p'.TotalShares = p.TotalShares + (sd' - sd) ∧ sd ≤ sd' := by
  unfold SharePool.Deposit at h
  cases hs : sharesForTokens p amt with
  | none => rw [hs] at h; exact absurd h (by simp)
  | some shares =>
    rw [hs] at h
    cases hm : qMove p.Balance src amt with
    | none => rw [hm] at h; exact absurd h (by simp)
    | some pr =>
      rw [hm] at h
      obtain ⟨hpr, hle⟩ := qMove_spec hm
      subst hpr
      simp only [Option.some.injEq, Prod.mk.injEq] at h
      obtain ⟨hp, hsd, hsrc⟩ := h
      refine ⟨by rw [← hp], ?_, by omega⟩
      rw [← hp, ← hsd]
      show p.TotalShares + shares = p.TotalShares + (sd + shares - sd)
      omega

theorem reclaim_success_debonds (params : ConsensusParameters) (signer : Nat)
    (rc : ReclaimEscrow) (epoch di : Nat) (st : StakingState)
    (active' : SharePool) (q delShares' : Nat) (debonding' : SharePool) (debShares : Nat)
    (hsh : rc.Shares ≠ 0)
    (hperm : signer = rc.Account ∨ params.DisableDelegation = false)
    (hw : (st.accounts rc.Account).Escrow.Active.Withdraw 0
      (st.delegationShares (signer, rc.Account)) rc.Shares = some (active', q, delShares'))
    (hstake : ¬ active'.Balance
      < thresholdSum params.Thresholds (st.accounts rc.Account).Escrow.StakeAccumulator)
    (hdep : (st.accounts rc.Account).Escrow.Debonding.Deposit 0 q q
      = some (debonding', debShares, 0)) :
    (reclaimEscrow params signer rc epoch di st).2 = none ∧
    (((reclaimEscrow params signer rc epoch di st).1.accounts rc.Account).Escrow.Active
      = active') ∧
    (((reclaimEscrow params signer rc epoch di st).1.accounts rc.Account).Escrow.Debonding
      = debonding') ∧
    debonding'.Balance = (st.accounts rc.Account).Escrow.Debonding.Balance + q ∧
    debonding'.TotalShares
      = (st.accounts rc.Account).Escrow.Debonding.TotalShares + debShares ∧
    ((reclaimEscrow params signer rc epoch di st).1.debonding
      (signer, rc.Account, (st.accounts signer).General.Nonce)
      = some ⟨debShares, epoch + di⟩) ∧
    ((reclaimEscrow params signer rc epoch di st).1.delegationShares (signer, rc.Account)
      = delShares') := by
  have hcond : ¬ (signer ≠ rc.Account ∧ params.DisableDelegation = true) := by
    rcases hperm with h | h
    · simp [h]
    · simp [h]
  have hfrom : (if signer = rc.Account then st.accounts signer else st.accounts rc.Account)
      = st.accounts rc.Account := by
    split
    · rename_i h; rw [h]
    · rfl
  have hbs := Deposit_balance_shares hdep
  simp only [reclaimEscrow, if_neg hsh]
  rw [if_neg (by simpa using hcond), hfrom, hw]
  by_cases heq : signer = rc.Account
  · simp only [heq, if_pos rfl]
    simp [hstake, hdep, setAccount, setDelegation, setDebondingDelegation, hbs.1]
    omega
  · simp only [if_neg heq]
    simp [hstake, hdep, setAccount, setDelegation, setDebondingDelegation, hbs.1]
    omega


/-- Witness for `reclaim_success_debonds` at a concrete state: account 1
reclaims 10 of its 50 own-escrow shares at epoch 5 with a debonding
interval of 3. -/
theorem reclaim_success_debonds_witness :
    let params : ConsensusParameters :=
      { DisableTransfers := false, UndisableTransfersFrom := none,
        DisableDelegation := false, MinDelegationAmount := 0,
        Thresholds := fun _ => 0, CommissionScheduleRules := ⟨1, 0, 4, 4⟩ }
    let st : StakingState :=
      { accounts := fun _ => ⟨⟨7, 2⟩, ⟨⟨50, 50⟩, ⟨0, 0⟩, ⟨[], []⟩, []⟩⟩,
        delegationShares := fun _ => 50,
        debonding := fun _ => none,
        totalSupply := 10 }
    (reclaimEscrow params 1 ⟨1, 10⟩ 5 3 st).2 = none ∧
    (((reclaimEscrow params 1 ⟨1, 10⟩ 5 3 st).1.accounts 1).Escrow.Active
      = (⟨40, 40⟩ : SharePool)) ∧
    (((reclaimEscrow params 1 ⟨1, 10⟩ 5 3 st).1.accounts 1).Escrow.Debonding
      = (⟨10, 10⟩ : SharePool)) ∧
    (10 : Nat) = (st.accounts 1).Escrow.Debonding.Balance + 10 ∧
    (10 : Nat) = (st.accounts 1).Escrow.Debonding.TotalShares + 10 ∧
    ((reclaimEscrow params 1 ⟨1, 10⟩ 5 3 st).1.debonding
      (1, 1, (st.accounts 1).General.Nonce) = some ⟨10, 5 + 3⟩) ∧
    ((reclaimEscrow params 1 ⟨1, 10⟩ 5 3 st).1.delegationShares (1, 1) = 40) :=
  reclaim_success_debonds _ 1 ⟨1, 10⟩ 5 3 _ ⟨40, 40⟩ 10 40 ⟨10, 10⟩ 10
    (by decide) (Or.inl rfl) (by decide) (by decide) (by decide)

theorem validateComplexity_ok {cs : CommissionSchedule} {rules : CommissionScheduleRules}
    (h : validateComplexity cs rules = .ok ()) :
    cs.Rates.length ≤ rules.MaxRateSteps ∧ cs.Bounds.length ≤ rules.MaxBoundSteps := by
  unfold validateComplexity at h
  split at h
  · exact absurd h (by simp)
  · split at h
    · exact absurd h (by simp)
    · constructor <;> omega

theorem checkRateSteps_ok {rules : CommissionScheduleRules} {prev : Option Nat}
    {l : List CommissionRateStep} (h : checkRateSteps rules prev l = .ok ()) :
    (∀ s ∈ l, s.Start % rules.RateChangeInterval = 0 ∧ s.Rate ≤ CommissionRateDenominator) ∧
    List.Chain' (fun x y => x.Start < y.Start) l ∧
    (∀ p s, prev = some p → l.head? = some s → p < s.Start) := by
  induction l generalizing prev with
  | nil => simp
  | cons a rest ih =>
    unfold checkRateSteps at h
    split at h
    · exact absurd h (by simp)
    · split at h
      · exact absurd h (by simp)
      · split at h
        · exact absurd h (by simp)
        · rename_i h1 h2 h3
          obtain ⟨ihp, ihc, ihh⟩ := ih h
          refine ⟨?_, ?_, ?_⟩
          · intro s hs
            rcases List.mem_cons.mp hs with hs | hs
            · subst hs
              constructor
              · omega
              · omega
            · exact ihp s hs
          · rw [List.chain'_cons']
            refine ⟨?_, ihc⟩
            intro hd hhd
            exact ihh a.Start hd rfl hhd
          · intro p s hp hs
            simp only [List.head?_cons, Option.some.injEq] at hs
            subst hs
            cases hp
            simp only [notAfterPrev, decide_eq_true_eq] at h2
            omega

theorem checkBoundSteps_ok {rules : CommissionScheduleRules} {prev : Option Nat}
    {l : List CommissionRateBoundStep} (h : checkBoundSteps rules prev l = .ok ()) :
    (∀ s ∈ l, s.Start % rules.RateChangeInterval = 0 ∧ s.RateMin ≤ CommissionRateDenominator ∧
      s.RateMax ≤ CommissionRateDenominator ∧ s.RateMin ≤ s.RateMax) ∧
    List.Chain' (fun x y => x.Start < y.Start) l ∧
    (∀ p s, prev = some p → l.head? = some s → p < s.Start) := by
  induction l generalizing prev with
  | nil => simp
  | cons a rest ih =>
    unfold checkBoundSteps at h
    split at h
    · exact absurd h (by simp)
    · split at h
      · exact absurd h (by simp)
      · split at h
        · exact absurd h (by simp)
        · split at h
          · exact absurd h (by simp)
          · split at h
            · exact absurd h (by simp)
            · rename_i h1 h2 h3 h4 h5
              obtain ⟨ihp, ihc, ihh⟩ := ih h
              refine ⟨?_, ?_, ?_⟩
              · intro s hs
                rcases List.mem_cons.mp hs with hs | hs
                · subst hs
                  refine ⟨by omega, by omega, by omega, by omega⟩
                · exact ihp s hs
              · rw [List.chain'_cons']
                refine ⟨?_, ihc⟩
                intro hd hhd
                exact ihh a.Start hd rfl hhd
              · intro p s hp hs
                simp only [List.head?_cons, Option.some.injEq] at hs
                subst hs
                cases hp
                simp only [notAfterPrev, decide_eq_true_eq] at h2
                omega

theorem validateNondegenerate_ok {cs : CommissionSchedule} {rules : CommissionScheduleRules}
    (h : validateNondegenerate cs rules = .ok ()) :
    checkRateSteps rules none cs.Rates = .ok () ∧ checkBoundSteps rules none cs.Bounds = .ok () := by
  unfold validateNondegenerate at h
  cases hr : checkRateSteps rules none cs.Rates with
  | error e => rw [hr] at h; exact absurd h (by simp [Bind.bind, Except.bind])
  | ok u =>
    obtain ⟨⟩ := u
    rw [hr] at h
    cases hb : checkBoundSteps rules none cs.Bounds with
    | error e => rw [hb] at h; exact absurd h (by simp [Bind.bind, Except.bind])
    | ok v => exact ⟨rfl, rfl⟩

theorem validateAmendmentAcceptable_ok {cs : CommissionSchedule}
    {rules : CommissionScheduleRules} {now : Nat}
    (h : validateAmendmentAcceptable cs rules now = .ok ()) :
    (∀ s, cs.Rates.head? = some s → now < s.Start) ∧
    (∀ s, cs.Bounds.head? = some s → now + rules.RateBoundLead < s.Start) := by
  unfold validateAmendmentAcceptable at h
  constructor
  · intro s hs
    cases hR : cs.Rates with
    | nil => rw [hR] at hs; simp at hs
    | cons r0 rtl =>
      rw [hR] at hs h
      simp only [List.head?_cons, Option.some.injEq] at hs
      subst hs
      split at h
      · rename_i r0x tailx heq
        injection heq with h1 h2
        subst h1
        split at h
        · exact absurd h (by simp)
        · omega
      · rename_i heq
        exact absurd heq (by simp)
  · intro s hs
    cases hB : cs.Bounds with
    | nil => rw [hB] at hs; simp at hs
    | cons b0 btl =>
      rw [hB] at hs
      simp only [List.head?_cons, Option.some.injEq] at hs
      subst hs
      have hmb : validateAmendmentAcceptable.matchBounds cs rules now = .ok () := by
        split at h
        · rename_i r0x tailx heq
          split at h
          · exact absurd h (by simp)
          · exact h
        · exact h
      unfold validateAmendmentAcceptable.matchBounds at hmb
      split at hmb
      · rename_i b0x tailx heq
        rw [hB] at heq
        injection heq with h1 h2
        subst h1
        split at hmb
        · exact absurd hmb (by simp)
        · omega
      · rename_i heq
        rw [hB] at heq
        exact absurd heq (by simp)

theorem AAPV_ok_validators {cs a : CommissionSchedule} {rules : CommissionScheduleRules}
    {now : Nat} {cs2 : CommissionSchedule}
    (h : AmendAndPruneAndValidate cs a rules now = .ok cs2) :
    validateComplexity a rules = .ok () ∧ validateNondegenerate a rules = .ok () ∧
    validateAmendmentAcceptable a rules now = .ok () := by
  unfold AmendAndPruneAndValidate at h
  cases h1 : validateComplexity a rules with
  | error e => rw [h1] at h; exact absurd h (by simp [Bind.bind, Except.bind])
  | ok u =>
    obtain ⟨⟩ := u
    rw [h1] at h
    cases h2 : validateNondegenerate a rules with
    | error e => rw [h2] at h; exact absurd h (by simp [Bind.bind, Except.bind])
    | ok v =>
      obtain ⟨⟩ := v
      rw [h2] at h
      cases h3 : validateAmendmentAcceptable a rules now with
      | error e => rw [h3] at h; exact absurd h (by simp [Bind.bind, Except.bind])
      | ok w => exact ⟨rfl, rfl, rfl⟩

/-- Claim C7: `AmendCommissionSchedule` rejects an amendment whenever any
of the listed conditions holds: too many rate or bound steps; a start
epoch not a multiple of the rate change interval; starts not strictly
increasing; a rate, bound minimum or bound maximum over unity, or a bound
maximum below its minimum; a first rate step starting at or before the
current epoch; or a first bound step starting at or before the current
epoch plus the rate bound lead. -/
theorem amendment_rejected (cs a : CommissionSchedule) (rules : CommissionScheduleRules)
    (now : Nat)
    (hviol :
      rules.MaxRateSteps < a.Rates.length ∨
      rules.MaxBoundSteps < a.Bounds.length ∨
      (∃ s ∈ a.Rates, s.Start % rules.RateChangeInterval ≠ 0) ∨
      (∃ s ∈ a.Bounds, s.Start % rules.RateChangeInterval ≠ 0) ∨
      ¬ List.Chain' (fun x y => x.Start < y.Start) a.Rates ∨
      ¬ List.Chain' (fun x y => x.Start < y.Start) a.Bounds ∨
      (∃ s ∈ a.Rates, CommissionRateDenominator < s.Rate) ∨
      (∃ s ∈ a.Bounds, CommissionRateDenominator < s.RateMin) ∨
      (∃ s ∈ a.Bounds, CommissionRateDenominator < s.RateMax) ∨
      (∃ s ∈ a.Bounds, s.RateMax < s.RateMin) ∨
      (∃ s, a.Rates.head? = some s ∧ s.Start ≤ now) ∨
      (∃ s, a.Bounds.head? = some s ∧ s.Start ≤ now + rules.RateBoundLead)) :
    ∃ e, AmendAndPruneAndValidate cs a rules now = .error e := by
  cases hA : AmendAndPruneAndValidate cs a rules now with
  | error e => exact ⟨e, rfl⟩
  | ok cs2 =>
    exfalso
    obtain ⟨hc, hn, hacc⟩ := AAPV_ok_validators hA
    obtain ⟨hcr, hcb⟩ := validateComplexity_ok hc
    obtain ⟨hr, hb⟩ := validateNondegenerate_ok hn
    obtain ⟨hrprops, hrchain, -⟩ := checkRateSteps_ok hr
    obtain ⟨hbprops, hbchain, -⟩ := checkBoundSteps_ok hb
    obtain ⟨haccr, haccb⟩ := validateAmendmentAcceptable_ok hacc
    rcases hviol with h | h | h | h | h | h | h | h | h | h | h | h
    · omega
    · omega
    · obtain ⟨s, hm, hs⟩ := h
      exact hs (hrprops s hm).1
    · obtain ⟨s, hm, hs⟩ := h
      exact hs (hbprops s hm).1
    · exact h hrchain
    · exact h hbchain
    · obtain ⟨s, hm, hs⟩ := h
      have := (hrprops s hm).2
      omega
    · obtain ⟨s, hm, hs⟩ := h
      have := (hbprops s hm).2.1
      omega
    · obtain ⟨s, hm, hs⟩ := h
      have := (hbprops s hm).2.2.1
      omega
    · obtain ⟨s, hm, hs⟩ := h
      have := (hbprops s hm).2.2.2
      have h2 := (hbprops s hm).2.1
      omega
    · obtain ⟨s, hhd, hs⟩ := h
      have := haccr s hhd
      omega
    · obtain ⟨s, hhd, hs⟩ := h
      have := haccb s hhd
      omega

/-- Witness for `amendment_rejected`: an amendment whose first rate step
starts at the current epoch is rejected. -/
theorem amendment_rejected_witness :
    ∃ e, AmendAndPruneAndValidate ⟨[], []⟩ ⟨[⟨10, 5⟩], []⟩ ⟨10, 0, 4, 4⟩ 10 = .error e :=
  amendment_rejected ⟨[], []⟩ ⟨[⟨10, 5⟩], []⟩ ⟨10, 0, 4, 4⟩ 10
    (by right; right; right; right; right; right; right; right; right; right; left
        exact ⟨⟨10, 5⟩, rfl, by decide⟩)


theorem withinBoundLoopF_sound {fuel : Nat} {r : CommissionRateStep}
    {rs : List CommissionRateStep} {b : CommissionRateBoundStep}
    {bs : List CommissionRateBoundStep}
    (hfuel : rs.length + bs.length < fuel)
    (h : withinBoundLoopF fuel r rs b bs = .ok ()) :
    ∀ e, (latestStartedBound b bs e).RateMin ≤ (latestStartedRate r rs e).Rate ∧
      (latestStartedRate r rs e).Rate ≤ (latestStartedBound b bs e).RateMax := by
  induction fuel generalizing r rs b bs with
  | zero => omega
  | succ fuel ih =>
    unfold withinBoundLoopF at h
    split at h
    · exact absurd h (by simp)
    · split at h
      · exact absurd h (by simp)
      · rename_i hmin hmax
        split at h
        · -- rs = [], bs = []
          intro e
          simp only [latestStartedRate, latestStartedBound]
          omega
        · -- rs = r' :: rs', bs = []
          rename_i r' rs'
          have IH := ih (by simp at hfuel ⊢; omega) h
          intro e
          by_cases hre : r'.Start ≤ e
          · simp only [latestStartedRate, latestStartedBound, if_pos hre]
            exact IH e
          · simp only [latestStartedRate, latestStartedBound, if_neg hre]
            omega
        · -- rs = [], bs = b' :: bs'
          rename_i b' bs'
          have IH := ih (by simp at hfuel ⊢; omega) h
          intro e
          by_cases hbe : b'.Start ≤ e
          · simp only [latestStartedRate, latestStartedBound, if_pos hbe]
            exact IH e
          · simp only [latestStartedRate, latestStartedBound, if_neg hbe]
            omega
        · -- rs = r' :: rs', bs = b' :: bs'
          rename_i r' rs' b' bs'
          split at h
          · split at h
            · -- equal starts: both advance
              rename_i hrb hbr
              have IH := ih (by simp at hfuel ⊢; omega) h
              have heq : r'.Start = b'.Start := le_antisymm hrb hbr
              intro e
              by_cases hre : r'.Start ≤ e
              · have hbe : b'.Start ≤ e := heq ▸ hre
                simp only [latestStartedRate, latestStartedBound, if_pos hre, if_pos hbe]
                exact IH e
              · have hbe : ¬ b'.Start ≤ e := heq ▸ hre
                simp only [latestStartedRate, latestStartedBound, if_neg hre, if_neg hbe]
                omega
            · -- rate advances only
              rename_i hrb hbr
              have IH := ih (by simp at hfuel ⊢; omega) h
              intro e
              by_cases hre : r'.Start ≤ e
              · simp only [latestStartedRate, if_pos hre]
                exact IH e
              · have hbe : ¬ b'.Start ≤ e := by omega
                simp only [latestStartedRate, latestStartedBound, if_neg hre, if_neg hbe]
                omega
          · -- bound advances only
            rename_i hrb
            have IH := ih (by simp at hfuel ⊢; omega) h
            intro e
            by_cases hbe : b'.Start ≤ e
            · simp only [latestStartedBound, if_pos hbe]
              exact IH e
            · have hre : ¬ r'.Start ≤ e := by omega
              simp only [latestStartedRate, latestStartedBound, if_neg hre, if_neg hbe]
              omega

theorem validateWithinBound_sound {cs : CommissionSchedule} {now : Nat}
    (h : validateWithinBound cs now = .ok ()) :
    ∀ e rate bd, CurrentRate cs e = some rate → CurrentBound cs e = some bd →
      bd.RateMin ≤ rate ∧ rate ≤ bd.RateMax := by
  intro e rate bd hr hb
  obtain ⟨Rs, Bs⟩ := cs
  cases Rs with
  | nil => exact absurd hr (by simp [CurrentRate])
  | cons r rs =>
    cases Bs with
    | nil => exact absurd hb (by simp [CurrentBound])
    | cons b bs =>
      simp only [CurrentRate] at hr
      simp only [CurrentBound] at hb
      simp only [validateWithinBound] at h
      split at hr
      · exact absurd hr (by simp)
      · split at hb
        · exact absurd hb (by simp)
        · simp only [Option.some.injEq] at hr hb
          subst hr hb
          split at h
          · exact absurd h (by simp)
          · have := withinBoundLoopF_sound (show rs.length + bs.length < rs.length + bs.length + 1 by omega) h e
            exact ⟨this.1, this.2⟩

theorem AAPV_ok_withinBound {cs a : CommissionSchedule} {rules : CommissionScheduleRules}
    {now : Nat} {cs2 : CommissionSchedule}
    (h : AmendAndPruneAndValidate cs a rules now = .ok cs2) :
    validateWithinBound cs2 now = .ok () := by
  simp only [AmendAndPruneAndValidate, Bind.bind, Except.bind] at h
  cases h1 : validateComplexity a rules with
  | error e => rw [h1] at h; exact absurd h (by simp [Bind.bind, Except.bind])
  | ok u =>
    obtain ⟨⟩ := u
    rw [h1] at h
    cases h2 : validateNondegenerate a rules with
    | error e => rw [h2] at h; exact absurd h (by simp [Bind.bind, Except.bind])
    | ok v =>
      obtain ⟨⟩ := v
      rw [h2] at h
      cases h3 : validateAmendmentAcceptable a rules now with
      | error e => rw [h3] at h; exact absurd h (by simp [Bind.bind, Except.bind])
      | ok w =>
        obtain ⟨⟩ := w
        rw [h3] at h
        cases h4 : validateComplexity (amend (Prune cs now) a) rules with
        | error e => rw [h4] at h; exact absurd h (by simp [Bind.bind, Except.bind])
        | ok x =>
          obtain ⟨⟩ := x
          rw [h4] at h
          cases h5 : validateWithinBound (amend (Prune cs now) a) now with
          | error e => rw [h5] at h; exact absurd h (by simp [Bind.bind, Except.bind])
          | ok y =>
            obtain ⟨⟩ := y
            rw [h5] at h
            simp only [Bind.bind, Except.bind, pure, Except.pure, Except.ok.injEq] at h
            rw [← h]
            exact h5

theorem genesis_ok_withinBound {cs : CommissionSchedule} {rules : CommissionScheduleRules}
    {now : Nat} {cs2 : CommissionSchedule}
    (h : PruneAndValidateForGenesis cs rules now = .ok cs2) :
    validateWithinBound cs2 now = .ok () := by
  simp only [PruneAndValidateForGenesis, Bind.bind, Except.bind] at h
  cases h1 : validateComplexity cs rules with
  | error e => rw [h1] at h; exact absurd h (by simp [Bind.bind, Except.bind])
  | ok u =>
    obtain ⟨⟩ := u
    rw [h1] at h
    cases h2 : validateNondegenerate cs rules with
    | error e => rw [h2] at h; exact absurd h (by simp [Bind.bind, Except.bind])
    | ok v =>
      obtain ⟨⟩ := v
      rw [h2] at h
      cases h3 : validateWithinBound (Prune cs now) now with
      | error e => rw [h3] at h; exact absurd h (by simp [Bind.bind, Except.bind])
      | ok w =>
        obtain ⟨⟩ := w
        rw [h3] at h
        simp only [Bind.bind, Except.bind, pure, Except.pure, Except.ok.injEq] at h
        rw [← h]
        exact h3

/-- Claim C8: every commission schedule accepted by
`AmendAndPruneAndValidate` or `PruneAndValidateForGenesis` keeps, at every
epoch at or after the validation epoch at which both a rate step and a
bound step are active, the active rate between the active bound's
`RateMin` and `RateMax` inclusive.  (The proof in fact gives this at every
epoch, with or without the `now ≤ e` restriction.) -/
theorem accepted_schedule_rate_within_bound :
    (∀ cs a : CommissionSchedule, ∀ rules : CommissionScheduleRules, ∀ now : Nat,
      ∀ cs2 : CommissionSchedule, AmendAndPruneAndValidate cs a rules now = .ok cs2 →
      ∀ e, now ≤ e → ∀ rate bd, CurrentRate cs2 e = some rate →
        CurrentBound cs2 e = some bd → bd.RateMin ≤ rate ∧ rate ≤ bd.RateMax) ∧
    (∀ cs : CommissionSchedule, ∀ rules : CommissionScheduleRules, ∀ now : Nat,
      ∀ cs2 : CommissionSchedule, PruneAndValidateForGenesis cs rules now = .ok cs2 →
      ∀ e, now ≤ e → ∀ rate bd, CurrentRate cs2 e = some rate →
        CurrentBound cs2 e = some bd → bd.RateMin ≤ rate ∧ rate ≤ bd.RateMax) := by
  constructor
  · intro cs a rules now cs2 h e he rate bd hr hb
    exact validateWithinBound_sound (AAPV_ok_withinBound h) e rate bd hr hb
  · intro cs rules now cs2 h e he rate bd hr hb
    exact validateWithinBound_sound (genesis_ok_withinBound h) e rate bd hr hb

/-- Witness for `accepted_schedule_rate_within_bound`: a one-step
schedule accepted by both validation entry points keeps its rate inside
the bound at epoch 10. -/
theorem accepted_schedule_rate_within_bound_witness :
    ((0 : Nat) ≤ 50 ∧ (50 : Nat) ≤ 100000) ∧ ((0 : Nat) ≤ 50 ∧ (50 : Nat) ≤ 100000) :=
  ⟨accepted_schedule_rate_within_bound.1 ⟨[], []⟩ ⟨[⟨10, 50⟩], [⟨10, 0, 100000⟩]⟩
      ⟨10, 0, 4, 4⟩ 5 ⟨[⟨10, 50⟩], [⟨10, 0, 100000⟩]⟩ (by decide) 10 (by decide)
      50 ⟨10, 0, 100000⟩ (by decide) (by decide),
   accepted_schedule_rate_within_bound.2 ⟨[⟨10, 50⟩], [⟨10, 0, 100000⟩]⟩
      ⟨10, 0, 4, 4⟩ 5 ⟨[⟨10, 50⟩], [⟨10, 0, 100000⟩]⟩ (by decide) 10 (by decide)
      50 ⟨10, 0, 100000⟩ (by decide) (by decide)⟩


theorem b64DecodeChar_encodeChar :
    ∀ s, s < 64 → b64DecodeChar (b64EncodeChar s) = some s := by
  decide

theorem b64EncodeChar_ne_pad : ∀ s, s < 64 → b64EncodeChar s ≠ b64Pad := by
  decide

theorem b64Sextets_lt {l : List Nat} (hl : ∀ x ∈ l, x < 256) :
    ∀ s ∈ b64Sextets l, s < 64 := by
  induction l using b64Sextets.induct with
  | case1 a b c rest ih =>
    intro s hs
    have ha := hl a (by simp)
    have hb := hl b (by simp)
    have hc := hl c (by simp)
    simp only [b64Sextets, List.mem_cons] at hs
    rcases hs with h | h | h | h | h
    · omega
    · omega
    · omega
    · omega
    · exact ih (fun x hx => hl x (by simp [hx])) s h
  | case2 a b =>
    intro s hs
    have ha := hl a (by simp)
    have hb := hl b (by simp)
    simp only [b64Sextets, List.mem_cons] at hs
    rcases hs with h | h | h | h
    · omega
    · omega
    · omega
    · simp at h
  | case3 a =>
    intro s hs
    have ha := hl a (by simp)
    simp only [b64Sextets, List.mem_cons] at hs
    rcases hs with h | h | h
    · omega
    · omega
    · simp at h
  | case4 => intro s hs; simp [b64Sextets] at hs

theorem b64StripPad_append {l : List Nat} (k : Nat) (hl : ∀ x ∈ l, x ≠ b64Pad) :
    b64StripPad (l ++ List.replicate k b64Pad) = l := by
  induction l with
  | nil =>
    induction k with
    | zero => rfl
    | succ k ihk =>
      simp only [List.nil_append, List.replicate_succ, b64StripPad]
      simp only [List.nil_append] at ihk
      rw [ihk]
      simp
  | cons c rest ih =>
    have hc := hl c (by simp)
    have ihr := ih (fun x hx => hl x (by simp [hx]))
    simp only [List.cons_append, b64StripPad, List.append_eq]
    rw [ihr]
    cases hrest : rest with
    | nil => simp [hc]
    | cons y ys => rfl

theorem b64DecodeChars_map_enc {l : List Nat} (hl : ∀ s ∈ l, s < 64) :
    b64DecodeChars (l.map b64EncodeChar) = .ok l := by
  induction l with
  | nil => rfl
  | cons s rest ih =>
    have hs := hl s (by simp)
    simp only [List.map_cons, b64DecodeChars, b64DecodeChar_encodeChar s hs]
    rw [ih (fun x hx => hl x (by simp [hx]))]
    rfl

theorem b64Unpack_sextets {l : List Nat} (hl : ∀ x ∈ l, x < 256) :
    b64Unpack (b64Sextets l) = .ok l := by
  induction l using b64Sextets.induct with
  | case1 a b c rest ih =>
    have ha := hl a (by simp)
    have hb := hl b (by simp)
    have hc := hl c (by simp)
    have ihr := ih (fun x hx => hl x (by simp [hx]))
    simp only [b64Sextets, b64Unpack, ihr]
    have e1 : (a / 4) * 4 + (a % 4 * 16 + b / 16) / 16 = a := by omega
    have e2 : (a % 4 * 16 + b / 16) % 16 * 16 + (b % 16 * 4 + c / 64) / 4 = b := by omega
    have e3 : (b % 16 * 4 + c / 64) % 4 * 64 + c % 64 = c := by omega
    rw [e1, e2, e3]
    rfl
  | case2 a b =>
    have ha := hl a (by simp)
    have hb := hl b (by simp)
    simp only [b64Sextets, b64Unpack]
    have e1 : (a / 4) * 4 + (a % 4 * 16 + b / 16) / 16 = a := by omega
    have e2 : (a % 4 * 16 + b / 16) % 16 * 16 + (b % 16 * 4) / 4 = b := by omega
    rw [e1, e2]
  | case3 a =>
    have ha := hl a (by simp)
    simp only [b64Sextets, b64Unpack]
    have e1 : (a / 4) * 4 + (a % 4 * 16) / 16 = a := by omega
    rw [e1]
  | case4 => rfl

theorem b64_roundtrip {l : List Nat} (hl : ∀ x ∈ l, x < 256) :
    b64Decode (b64Encode l) = .ok l := by
  have hsx := b64Sextets_lt hl
  unfold b64Encode b64Decode
  rw [b64StripPad_append _ (by
    intro x hx
    obtain ⟨s, hs, hxs⟩ := List.mem_map.mp hx
    rw [← hxs]
    exact b64EncodeChar_ne_pad s (hsx s hs))]
  rw [b64DecodeChars_map_enc hsx]
  simp only [Bind.bind, Except.bind]
  exact b64Unpack_sextets hl

/-- Claim C9: binary and text serialization of a 20-byte address
round-trip to the identity (text round-trips for byte-valued entries);
`UnmarshalBinary` fails with `ErrMalformed` exactly when the input is not
20 bytes long; and `NewFromPublicKey` is the public key's hash truncated
to 20 bytes. -/
theorem address_codec :
    (∀ a : Address, UnmarshalBinary (MarshalBinary a) = .ok a) ∧
    (∀ a : Address, (∀ x ∈ a.bytes, x < 256) → UnmarshalText (MarshalText a) = .ok a) ∧
    (∀ data : List Nat, UnmarshalBinary data = .error .malformed ↔ data.length ≠ addressSize) ∧
    (∀ hashFn : List Nat → List Nat, ∀ pk : List Nat, addressSize ≤ (hashFn pk).length →
      ∃ a : Address, NewFromPublicKey hashFn pk = .ok a ∧
        a.bytes = (hashFn pk).take addressSize) := by
  have hbin : ∀ a : Address, UnmarshalBinary (MarshalBinary a) = .ok a := by
    intro a
    obtain ⟨bytes, hlen⟩ := a
    simp [MarshalBinary, UnmarshalBinary, hlen]
  refine ⟨hbin, ?_, ?_, ?_⟩
  · intro a hb
    unfold UnmarshalText MarshalText
    rw [b64_roundtrip hb]
    simp only [Bind.bind, Except.bind]
    exact hbin a
  · intro data
    unfold UnmarshalBinary
    by_cases h : data.length = addressSize
    · simp [h]
    · simp [h]
  · intro hashFn pk hle
    unfold NewFromPublicKey UnmarshalBinary
    have hlen : ((hashFn pk).take addressSize).length = addressSize := by
      simp [List.length_take]
      omega
    refine ⟨⟨(hashFn pk).take addressSize, hlen⟩, ?_, rfl⟩
    simp [hlen]

/-- Witness for `address_codec` at concrete inputs. -/
theorem address_codec_witness :
    (UnmarshalBinary (MarshalBinary ⟨List.replicate 20 7, by decide⟩)
      = .ok ⟨List.replicate 20 7, by decide⟩) ∧
    (UnmarshalText (MarshalText ⟨List.replicate 20 7, by decide⟩)
      = .ok ⟨List.replicate 20 7, by decide⟩) ∧
    (UnmarshalBinary [1, 2, 3] = .error .malformed ↔ ([1, 2, 3] : List Nat).length ≠ addressSize) ∧
    (∃ a : Address, NewFromPublicKey (fun _ => List.range 32) [1] = .ok a ∧
      a.bytes = (List.range 32).take addressSize) :=
  ⟨address_codec.1 ⟨List.replicate 20 7, by decide⟩,
   address_codec.2.1 ⟨List.replicate 20 7, by decide⟩ (by decide),
   address_codec.2.2.1 [1, 2, 3],
   address_codec.2.2.2 (fun _ => List.range 32) [1] (by decide)⟩


end Oasis
